import Mathlib

/-!
# Order-entry packet serializer (`order_entry.c`)

A shallow embedding of `serialize_orders` and `parse_packet`.

* A `char` buffer is a `List Nat` of byte values; its length is the size of the
  object the pointer refers to.  An access outside of it is undefined behaviour in C
  and is reported here as a `Fault`.
* The code stores and loads integers in the byte order of the host.  Every
  definition takes the byte order as a parameter, so that the results hold for a
  little-endian as well as for a big-endian host.
* `int` is 32 bits wide, `size_t` is 64 bits wide, `sizeof(PacketHeader) = 8` and
  `sizeof(Order) = 12` (the field offsets are 0, 4, 6 and 0, 4, 8).
* The text written by `printf` is kept as a list of `Event`s.
* `serialize_orders` takes the records as a value, in an object of their own;
  `serialize_orders_mem` is the same function with the buffer and the record array in
  one memory, where the two may overlap.
-/

namespace OrderEntry

/-- Byte order of the host. -/
inductive Endian where
  | little
  | big
deriving DecidableEq

/-- An access outside of the object a pointer refers to. -/
inductive Fault where
  | outOfBoundsRead (offset width : Nat)
  | outOfBoundsWrite (offset width : Nat)
  | outOfBoundsIndex (index : Nat)
deriving DecidableEq

/-- The `Order` struct: three `uint32_t` fields. -/
structure Order where
  id : Nat
  Price : Nat
  Quantity : Nat
deriving DecidableEq

/-- The fields of an `Order` are in the range of `uint32_t`. -/
def Order.wf (o : Order) : Prop :=
  o.id < 2 ^ 32 ∧ o.Price < 2 ^ 32 ∧ o.Quantity < 2 ^ 32

instance (o : Order) : Decidable o.wf :=
  inferInstanceAs (Decidable (o.id < 2 ^ 32 ∧ o.Price < 2 ^ 32 ∧ o.Quantity < 2 ^ 32))

/-- One line written by `printf`, with the values it prints. -/
inductive Event where
  | memoryError
  | packetReceived
  | invalidPacket
  | magic (m : Nat)
  | version (v : Nat)
  | count (c : Nat)
  | trade (id price quantity : Nat)
  | complete
deriving DecidableEq

def LATEST_VERSION : Nat := 1

/-- The constant `0xCAFEBABE`. -/
def MAGIC : Nat := 0xCAFEBABE

/-- The value of `sizeof(PacketHeader)`. -/
def sizeofPacketHeader : Nat := 8

/-- The value of `sizeof(Order)`. -/
def sizeofOrder : Nat := 12

/-! ## Integer conversions -/

/-- Conversion of an `int` to `size_t` (64 bits, unsigned). -/
def toSizeT (x : Int) : Nat := (x % 2 ^ 64).toNat

/-- Conversion of an `int` to `uint16_t`. -/
def toU16 (x : Int) : Nat := (x % 2 ^ 16).toNat

/-- Conversion of a `size_t` to `int` (32 bits, two's complement). -/
def toInt (x : Nat) : Int :=
  if x % 2 ^ 32 < 2 ^ 31 then ((x % 2 ^ 32 : Nat) : Int) else ((x % 2 ^ 32 : Nat) : Int) - 2 ^ 32

/-- A value is in the range of `int`. -/
def isInt (x : Int) : Prop := -2 ^ 31 ≤ x ∧ x < 2 ^ 31

instance (x : Int) : Decidable (isInt x) :=
  inferInstanceAs (Decidable (-2 ^ 31 ≤ x ∧ x < 2 ^ 31))

/-! ## Memory -/

/-- The `w` bytes of `v`, least significant first. -/
def leBytes : Nat → Nat → List Nat
  | 0, _ => []
  | w + 1, v => (v % 256) :: leBytes w (v / 256)

/-- The value of a sequence of bytes, least significant first. -/
def leValue : List Nat → Nat
  | [] => 0
  | b :: bs => b + 256 * leValue bs

/-- The `w` bytes that represent `v` in memory. -/
def toBytes (e : Endian) (w v : Nat) : List Nat :=
  match e with
  | .little => leBytes w v
  | .big => (leBytes w v).reverse

/-- The value that a sequence of bytes in memory represents. -/
def ofBytes (e : Endian) (bs : List Nat) : Nat :=
  match e with
  | .little => leValue bs
  | .big => leValue bs.reverse

/-- Write the bytes `bs` at offset `off` of `buf`. -/
def storeBytes (buf : List Nat) (off : Nat) (bs : List Nat) : Except Fault (List Nat) :=
  if off + bs.length ≤ buf.length then
    .ok (buf.take off ++ bs ++ buf.drop (off + bs.length))
  else
    .error (.outOfBoundsWrite off bs.length)

/-- Read `w` bytes at offset `off` of `buf`. -/
def loadBytes (buf : List Nat) (off w : Nat) : Except Fault (List Nat) :=
  if off + w ≤ buf.length then
    .ok ((buf.drop off).take w)
  else
    .error (.outOfBoundsRead off w)

/-- Assignment to a `uint32_t` at byte offset `off`. -/
def store32 (e : Endian) (buf : List Nat) (off v : Nat) : Except Fault (List Nat) :=
  storeBytes buf off (toBytes e 4 v)

/-- Assignment to a `uint16_t` at byte offset `off`. -/
def store16 (e : Endian) (buf : List Nat) (off v : Nat) : Except Fault (List Nat) :=
  storeBytes buf off (toBytes e 2 v)

/-- Read of a `uint32_t` at byte offset `off`. -/
def load32 (e : Endian) (buf : List Nat) (off : Nat) : Except Fault Nat :=
  (loadBytes buf off 4).map (ofBytes e)

/-- Read of a `uint16_t` at byte offset `off`. -/
def load16 (e : Endian) (buf : List Nat) (off : Nat) : Except Fault Nat :=
  (loadBytes buf off 2).map (ofBytes e)

/-- Read of `orders[i]`. -/
def readOrder (orders : List Order) (i : Nat) : Except Fault Order :=
  match orders[i]? with
  | some o => .ok o
  | none => .error (.outOfBoundsIndex i)

/-! ## `serialize_orders` -/

/-- What `serialize_orders` leaves behind: the value it returns, the buffer and
the lines it printed. -/
structure SerializeResult where
  ret : Int
  buffer : List Nat
  out : List Event
deriving DecidableEq

/-- The loop `for (int i = 0; i < count; i++)` of `serialize_orders`, with
`remaining` the number of iterations still to run (`count - i`), `i` the index into
`orders` and `payload` the byte offset of the `payload` pointer. -/
def serialize_loop (e : Endian) (orders : List Order) :
    (remaining : Nat) → (i : Nat) → (payload : Nat) → List Nat → Except Fault (List Nat)
  | 0, _, _, buf => .ok buf
  | n + 1, i, payload, buf => do
    let o ← readOrder orders i
    let buf ← store32 e buf payload o.id
    let o ← readOrder orders i
    let buf ← store32 e buf (payload + 4) o.Price
    let o ← readOrder orders i
    let buf ← store32 e buf (payload + 8) o.Quantity
    serialize_loop e orders n (i + 1) (payload + sizeofOrder) buf

/-- The function `serialize_orders(buffer, buffer_size, orders, count, version)`. -/
def serialize_orders (e : Endian) (buffer : List Nat) (buffer_size : Nat)
    (orders : List Order) (count : Int) (version : Int) : Except Fault SerializeResult :=
  let required_size := (sizeofPacketHeader + toSizeT count * sizeofOrder) % 2 ^ 64
  if required_size > buffer_size then
    .ok ⟨-1, buffer, [.memoryError]⟩
  else do
    let buf ← store32 e buffer 0 MAGIC
    let buf ← store16 e buf 6 (toU16 count)
    let buf ← store16 e buf 4 (toU16 version)
    let buf ← serialize_loop e orders count.toNat 0 sizeofPacketHeader buf
    .ok ⟨toInt ((sizeofPacketHeader + toSizeT count * sizeofOrder) % 2 ^ 64), buf, []⟩

/-! ## `parse_packet` -/

/-- What `parse_packet` leaves behind: the value it returns and the lines it
printed. -/
structure ParseResult where
  ret : Int
  out : List Event
deriving DecidableEq

/-- The loop `for (int i = 0; i < header->count; i++)` of `parse_packet`, with
`remaining` the number of iterations still to run, `trades` the byte offset of the
`trades` pointer and `out` the lines printed so far. -/
def parse_loop (e : Endian) (buffer : List Nat) :
    (remaining : Nat) → (trades : Nat) → (out : List Event) → Except Fault (List Event)
  | 0, _, out => .ok out
  | n + 1, trades, out => do
    let id ← load32 e buffer trades
    let price ← load32 e buffer (trades + 4)
    let quantity ← load32 e buffer (trades + 8)
    parse_loop e buffer n (trades + sizeofOrder) (out ++ [.trade id price quantity])

/-- The function `parse_packet(buffer)`. -/
def parse_packet (e : Endian) (buffer : List Nat) : Except Fault ParseResult := do
  let out := [Event.packetReceived]
  let magic ← load32 e buffer 0
  if magic ≠ MAGIC then
    .ok ⟨-1, out ++ [.invalidPacket]⟩
  else do
    let version ← load16 e buffer 4
    if version ≠ LATEST_VERSION then
      .ok ⟨-1, out ++ [.invalidPacket]⟩
    else do
      let magic ← load32 e buffer 0
      let version ← load16 e buffer 4
      let count ← load16 e buffer 6
      let out := out ++ [.magic magic, .version version, .count count]
      let out ← parse_loop e buffer count sizeofPacketHeader out
      .ok ⟨0, out ++ [.complete]⟩

/-- The value `main` prints as the expected size,
`sizeof(PacketHeader) + (num_of_orders * sizeof(Order))`. -/
def expected_size (num_of_orders : Int) : Nat :=
  (sizeofPacketHeader + toSizeT num_of_orders * sizeofOrder) % 2 ^ 64

/-- Equality of two results of a run is decidable. -/
def decEqExcept {α : Type} [DecidableEq α] : (a b : Except Fault α) → Decidable (a = b)
  | .ok x, .ok y => if h : x = y then isTrue (congrArg _ h) else isFalse (fun h2 => h (Except.ok.inj h2))
  | .error x, .error y =>
    if h : x = y then isTrue (congrArg _ h) else isFalse (fun h2 => h (Except.error.inj h2))
  | .ok _, .error _ => isFalse (fun h => Except.noConfusion h)
  | .error _, .ok _ => isFalse (fun h => Except.noConfusion h)

instance {α : Type} [DecidableEq α] : DecidableEq (Except Fault α) := decEqExcept

/-- The line `parse_packet` prints for one record. -/
def tradeEvent (o : Order) : Event := .trade o.id o.Price o.Quantity

/-- The two calls of `main`: `serialize_orders` on the buffer, then `parse_packet`
on the same buffer. -/
def round_trip (e : Endian) (buffer : List Nat) (buffer_size : Nat)
    (orders : List Order) (count : Int) (version : Int) :
    Except Fault (SerializeResult × ParseResult) := do
  let r ← serialize_orders e buffer buffer_size orders count version
  let p ← parse_packet e r.buffer
  .ok (r, p)

/-- The `count` field of the header in the buffer that `serialize_orders` leaves
behind. -/
def written_count (e : Endian) (buffer : List Nat) (buffer_size : Nat)
    (orders : List Order) (count : Int) (version : Int) : Except Fault Nat := do
  let r ← serialize_orders e buffer buffer_size orders count version
  load16 e r.buffer 6

/-- Flip bit `k` of the 32-bit magic field at offset 0 of a packet; every other
byte keeps its value. -/
def flip_magic_bit (e : Endian) (buf : List Nat) (k : Nat) : Except Fault (List Nat) := do
  let m ← load32 e buf 0
  store32 e buf 0 (m ^^^ 2 ^ k)

/-! ## `serialize_orders` in one address space

`serialize_orders` above takes the records as a value: there the record array and the
buffer are two separate objects. The signature of the function does not demand that.
The definitions below place the buffer and the record array in one memory `mem`, at the
byte addresses `buffer` and `orders`, so that the two may overlap; every statement of the
source is one load or one store in `mem`, in the order of the source. -/

/-- What `serialize_orders` leaves behind in one address space: the value it
returns, the memory and the lines it printed. -/
structure MemResult where
  ret : Int
  mem : List Nat
  out : List Event
deriving DecidableEq

/-- The loop `for (int i = 0; i < count; i++)` of `serialize_orders` in one address
space: `orders` is the address of the record array, `payload` the address the
`payload` pointer holds. Each field of `orders[i]` is loaded from the memory as the
stores before it left it. -/
def serialize_loop_mem (e : Endian) (orders : Nat) :
    (remaining : Nat) → (i : Nat) → (payload : Nat) → List Nat → Except Fault (List Nat)
  | 0, _, _, mem => .ok mem
  | n + 1, i, payload, mem => do
    let id ← load32 e mem (orders + sizeofOrder * i)
    let mem ← store32 e mem payload id
    let price ← load32 e mem (orders + sizeofOrder * i + 4)
    let mem ← store32 e mem (payload + 4) price
    let quantity ← load32 e mem (orders + sizeofOrder * i + 8)
    let mem ← store32 e mem (payload + 8) quantity
    serialize_loop_mem e orders n (i + 1) (payload + sizeofOrder) mem

/-- The function `serialize_orders(buffer, buffer_size, orders, count, version)` in
one address space, with `buffer` and `orders` the addresses the two pointers hold. -/
def serialize_orders_mem (e : Endian) (mem : List Nat) (buffer buffer_size orders : Nat)
    (count : Int) (version : Int) : Except Fault MemResult :=
  let required_size := (sizeofPacketHeader + toSizeT count * sizeofOrder) % 2 ^ 64
  if required_size > buffer_size then
    .ok ⟨-1, mem, [.memoryError]⟩
  else do
    let mem ← store32 e mem buffer MAGIC
    let mem ← store16 e mem (buffer + 6) (toU16 count)
    let mem ← store16 e mem (buffer + 4) (toU16 version)
    let mem ← serialize_loop_mem e orders count.toNat 0 (buffer + sizeofPacketHeader) mem
    .ok ⟨toInt ((sizeofPacketHeader + toSizeT count * sizeofOrder) % 2 ^ 64), mem, []⟩

/-- The record `orders[i]` as the memory holds it. -/
def read_order (e : Endian) (mem : List Nat) (orders i : Nat) : Except Fault Order := do
  let id ← load32 e mem (orders + sizeofOrder * i)
  let price ← load32 e mem (orders + sizeofOrder * i + 4)
  let quantity ← load32 e mem (orders + sizeofOrder * i + 8)
  .ok ⟨id, price, quantity⟩

/-- The records `orders[i]`, ..., `orders[i + n - 1]` as the memory holds them. -/
def read_orders (e : Endian) (mem : List Nat) (orders : Nat) :
    (n : Nat) → (i : Nat) → Except Fault (List Order)
  | 0, _ => .ok []
  | n + 1, i => do
    let o ← read_order e mem orders i
    let os ← read_orders e mem orders n (i + 1)
    .ok (o :: os)

/-- The bytes of one `Order` in memory. -/
def encOrder (e : Endian) (o : Order) : List Nat :=
  toBytes e 4 o.id ++ toBytes e 4 o.Price ++ toBytes e 4 o.Quantity

/-- The bytes of a sequence of `Order`s in memory, one after the other. -/
def encOrders (e : Endian) : List Order → List Nat
  | [] => []
  | o :: os => encOrder e o ++ encOrders e os

/-- The bytes of a `PacketHeader` in memory. -/
def encHeader (e : Endian) (magic version count : Nat) : List Nat :=
  toBytes e 4 magic ++ toBytes e 2 version ++ toBytes e 2 count

/-! ## Bytes and values -/

theorem leBytes_length (w v : Nat) : (leBytes w v).length = w := by
  induction w generalizing v with
  | zero => rfl
  | succ w ih => simp [leBytes, ih]

theorem leValue_leBytes (w v : Nat) : leValue (leBytes w v) = v % 256 ^ w := by
  induction w generalizing v with
  | zero => simp [leBytes, leValue, Nat.mod_one]
  | succ w ih =>
    simp only [leBytes, leValue, ih]
    rw [pow_succ, mul_comm (256 ^ w) 256, Nat.mod_mul]

theorem toBytes_length (e : Endian) (w v : Nat) : (toBytes e w v).length = w := by
  cases e <;> simp [toBytes, leBytes_length]

theorem ofBytes_toBytes (e : Endian) (w v : Nat) : ofBytes e (toBytes e w v) = v % 256 ^ w := by
  cases e <;> simp [toBytes, ofBytes, leValue_leBytes]

theorem encOrders_nil (e : Endian) : encOrders e [] = [] := rfl

theorem encOrder_length (e : Endian) (o : Order) : (encOrder e o).length = 12 := by
  simp [encOrder, toBytes_length]

theorem encOrders_length (e : Endian) (os : List Order) :
    (encOrders e os).length = 12 * os.length := by
  induction os with
  | nil => rfl
  | cons o os ih => simp only [encOrders, List.length_append, encOrder_length, ih, List.length_cons]; omega

theorem encHeader_length (e : Endian) (m v c : Nat) : (encHeader e m v c).length = 8 := by
  simp [encHeader, toBytes_length]

/-! ## Stores and loads in a buffer that is cut in three -/

theorem storeBytes_append (pre mid post bs : List Nat) (off : Nat)
    (hoff : off = pre.length) (hlen : mid.length = bs.length) :
    storeBytes (pre ++ mid ++ post) off bs = .ok (pre ++ bs ++ post) := by
  subst hoff
  have h1 : pre.length + bs.length ≤ (pre ++ mid ++ post).length := by
    simp only [List.length_append]; omega
  have h2 : pre.length + bs.length = (pre ++ mid).length := by
    simp only [List.length_append]; omega
  unfold storeBytes
  rw [if_pos h1, List.append_assoc pre mid post, List.take_left,
    ← List.append_assoc pre mid post, h2, List.drop_left]

theorem loadBytes_append (pre mid post : List Nat) (off w : Nat)
    (hoff : off = pre.length) (hlen : mid.length = w) :
    loadBytes (pre ++ mid ++ post) off w = .ok mid := by
  subst hoff hlen
  have h1 : pre.length + mid.length ≤ (pre ++ mid ++ post).length := by
    simp only [List.length_append]; omega
  unfold loadBytes
  rw [if_pos h1, List.append_assoc pre mid post, List.drop_left, List.take_left]

theorem store32_append (e : Endian) (pre mid post : List Nat) (off v : Nat)
    (hoff : off = pre.length) (hlen : mid.length = 4) :
    store32 e (pre ++ mid ++ post) off v = .ok (pre ++ toBytes e 4 v ++ post) :=
  storeBytes_append pre mid post _ off hoff (by rw [hlen, toBytes_length])

theorem store16_append (e : Endian) (pre mid post : List Nat) (off v : Nat)
    (hoff : off = pre.length) (hlen : mid.length = 2) :
    store16 e (pre ++ mid ++ post) off v = .ok (pre ++ toBytes e 2 v ++ post) :=
  storeBytes_append pre mid post _ off hoff (by rw [hlen, toBytes_length])

theorem load32_append (e : Endian) (pre post : List Nat) (off v : Nat)
    (hoff : off = pre.length) :
    load32 e (pre ++ toBytes e 4 v ++ post) off = .ok (v % 2 ^ 32) := by
  unfold load32
  rw [loadBytes_append pre _ post off 4 hoff (toBytes_length e 4 v)]
  simp [Except.map, ofBytes_toBytes]

theorem load16_append (e : Endian) (pre post : List Nat) (off v : Nat)
    (hoff : off = pre.length) :
    load16 e (pre ++ toBytes e 2 v ++ post) off = .ok (v % 2 ^ 16) := by
  unfold load16
  rw [loadBytes_append pre _ post off 2 hoff (toBytes_length e 2 v)]
  simp [Except.map, ofBytes_toBytes]

/-- A list can be cut at every position up to its length. -/
theorem exists_cut (l : List Nat) (k : Nat) (h : k ≤ l.length) :
    ∃ a b, l = a ++ b ∧ a.length = k ∧ b = l.drop k :=
  ⟨l.take k, l.drop k, (List.take_append_drop k l).symm, by simp [h], rfl⟩

/-! ## The loop of `serialize_orders` -/

theorem readOrder_append (done rest : List Order) (o : Order) (i : Nat)
    (hi : i = done.length) : readOrder (done ++ o :: rest) i = .ok o := by
  subst hi
  have h : (done ++ o :: rest)[done.length]? = some o := by
    rw [List.getElem?_append_right (Nat.le_refl _)]
    simp
  simp [readOrder, h]

theorem bind_ok {α β : Type} (a : α) (f : α → Except Fault β) :
    (Except.ok a >>= f) = f a := rfl

theorem map_ok {α β : Type} (f : α → β) (a : α) :
    (Except.ok a : Except Fault α).map f = .ok (f a) := rfl

theorem serialize_loop_append (e : Endian) (orders : List Order) :
    ∀ (os done rest : List Order) (pre mid post buf : List Nat) (i payload : Nat),
      orders = done ++ os ++ rest → i = done.length → payload = pre.length →
      buf = pre ++ mid ++ post → mid.length = 12 * os.length →
      serialize_loop e orders os.length i payload buf = .ok (pre ++ encOrders e os ++ post) := by
  intro os
  induction os with
  | nil =>
    intro done rest pre mid post buf i payload _ _ _ hbuf hmid
    have hnil : mid = [] := List.eq_nil_of_length_eq_zero (by simpa using hmid)
    subst hnil
    simp [serialize_loop, encOrders, hbuf]
  | cons o os ih =>
    intro done rest pre mid post buf i payload horders hi hpay hbuf hmid
    have hlen : 12 ≤ mid.length := by rw [hmid, List.length_cons]; omega
    obtain ⟨m1, t1, hm1, hl1, _⟩ := exists_cut mid 4 (by omega)
    have ht1 : t1.length = 8 + 12 * os.length := by
      have := congrArg List.length hm1
      simp only [List.length_append, hmid, List.length_cons] at this; omega
    obtain ⟨m2, t2, hm2, hl2, _⟩ := exists_cut t1 4 (by omega)
    have ht2 : t2.length = 4 + 12 * os.length := by
      have := congrArg List.length hm2
      simp only [List.length_append] at this; omega
    obtain ⟨m3, t3, hm3, hl3, _⟩ := exists_cut t2 4 (by omega)
    have ht3 : t3.length = 12 * os.length := by
      have := congrArg List.length hm3
      simp only [List.length_append] at this; omega
    have hread : readOrder orders i = .ok o := by
      rw [horders, List.append_assoc, List.cons_append]
      exact readOrder_append done (os ++ rest) o i hi
    have hs1 : store32 e buf payload o.id
        = .ok (pre ++ toBytes e 4 o.id ++ (m2 ++ m3 ++ t3 ++ post)) := by
      rw [show buf = pre ++ m1 ++ (m2 ++ m3 ++ t3 ++ post) by
        rw [hbuf, hm1, hm2, hm3]; simp only [List.append_assoc]]
      exact store32_append e pre m1 _ payload o.id hpay hl1
    have hs2 : store32 e (pre ++ toBytes e 4 o.id ++ (m2 ++ m3 ++ t3 ++ post)) (payload + 4) o.Price
        = .ok (pre ++ toBytes e 4 o.id ++ toBytes e 4 o.Price ++ (m3 ++ t3 ++ post)) := by
      rw [show pre ++ toBytes e 4 o.id ++ (m2 ++ m3 ++ t3 ++ post)
          = (pre ++ toBytes e 4 o.id) ++ m2 ++ (m3 ++ t3 ++ post) by
        simp only [List.append_assoc]]
      exact store32_append e _ m2 _ (payload + 4) o.Price
        (by rw [List.length_append, toBytes_length, hpay]) hl2
    have hs3 : store32 e (pre ++ toBytes e 4 o.id ++ toBytes e 4 o.Price ++ (m3 ++ t3 ++ post))
          (payload + 8) o.Quantity
        = .ok ((pre ++ encOrder e o) ++ t3 ++ post) := by
      rw [show pre ++ toBytes e 4 o.id ++ toBytes e 4 o.Price ++ (m3 ++ t3 ++ post)
          = (pre ++ toBytes e 4 o.id ++ toBytes e 4 o.Price) ++ m3 ++ (t3 ++ post) by
        simp only [List.append_assoc]]
      rw [store32_append e _ m3 _ (payload + 8) o.Quantity
        (by simp only [List.length_append, toBytes_length, hpay]) hl3]
      simp only [encOrder, List.append_assoc]
    have hrec := ih (done ++ [o]) rest (pre ++ encOrder e o) t3 post
      ((pre ++ encOrder e o) ++ t3 ++ post) (i + 1) (payload + sizeofOrder)
      (by rw [horders]; simp only [List.append_assoc, List.singleton_append])
      (by rw [hi, List.length_append, List.length_singleton])
      (by rw [hpay, List.length_append, encOrder_length, sizeofOrder])
      rfl ht3
    simp only [List.length_cons, serialize_loop, hread, bind_ok, hs1, hs2, hs3]
    rw [hrec]
    simp only [encOrders, List.append_assoc]

/-! ## Integer conversions of a record count -/

theorem toSizeT_natCast (n : Nat) (h : n < 2 ^ 64) : toSizeT (n : Int) = n := by
  unfold toSizeT
  omega

theorem toU16_natCast (n : Nat) : toU16 (n : Int) = n % 65536 := by
  unfold toU16
  omega

theorem required_size_natCast (n : Nat) (h : n < 2 ^ 31) :
    (sizeofPacketHeader + toSizeT (n : Int) * sizeofOrder) % 2 ^ 64 = 8 + 12 * n := by
  rw [toSizeT_natCast n (by omega), sizeofPacketHeader, sizeofOrder]
  omega

/-! ## `serialize_orders` on a buffer that is large enough -/

/-- The buffer and the value that `serialize_orders` produces for the first
`os.length` records of `orders`, when both the declared size and the buffer itself
are large enough. -/
theorem serialize_orders_ok (e : Endian) (buffer : List Nat) (buffer_size : Nat)
    (orders os rest : List Order) (count version : Int)
    (horders : orders = os ++ rest) (hcount : count = (os.length : Int))
    (hint : os.length < 2 ^ 31)
    (hsize : 8 + 12 * os.length ≤ buffer_size) (hbuf : 8 + 12 * os.length ≤ buffer.length) :
    serialize_orders e buffer buffer_size orders count version
      = .ok ⟨toInt (8 + 12 * os.length),
          encHeader e MAGIC (toU16 version) (os.length % 65536) ++ encOrders e os
            ++ buffer.drop (8 + 12 * os.length), []⟩ := by
  subst hcount
  obtain ⟨front, post, hfront, hlfront, hpost⟩ := exists_cut buffer (8 + 12 * os.length) hbuf
  obtain ⟨b0, t0, hb0, hl0, _⟩ := exists_cut front 4 (by omega)
  have ht0 : t0.length = 4 + 12 * os.length := by
    have := congrArg List.length hb0
    simp only [List.length_append] at this; omega
  obtain ⟨b1, t1, hb1, hl1, _⟩ := exists_cut t0 2 (by omega)
  have ht1 : t1.length = 2 + 12 * os.length := by
    have := congrArg List.length hb1
    simp only [List.length_append] at this; omega
  obtain ⟨b2, mid, hb2, hl2, _⟩ := exists_cut t1 2 (by omega)
  have hmid : mid.length = 12 * os.length := by
    have := congrArg List.length hb2
    simp only [List.length_append] at this; omega
  have hs1 : store32 e buffer 0 MAGIC
      = .ok ([] ++ toBytes e 4 MAGIC ++ (b1 ++ b2 ++ mid ++ post)) := by
    rw [show buffer = [] ++ b0 ++ (b1 ++ b2 ++ mid ++ post) by
      rw [hfront, hb0, hb1, hb2]; simp only [List.append_assoc, List.nil_append]]
    exact store32_append e [] b0 _ 0 MAGIC rfl hl0
  have hs2 : store16 e ([] ++ toBytes e 4 MAGIC ++ (b1 ++ b2 ++ mid ++ post)) 6
        (os.length % 65536)
      = .ok (toBytes e 4 MAGIC ++ b1 ++ (toBytes e 2 (os.length % 65536) ++ mid ++ post)) := by
    rw [show [] ++ toBytes e 4 MAGIC ++ (b1 ++ b2 ++ mid ++ post)
        = (toBytes e 4 MAGIC ++ b1) ++ b2 ++ (mid ++ post) by
      simp only [List.append_assoc, List.nil_append]]
    rw [store16_append e _ b2 _ 6 _
      (by simp only [List.length_append, toBytes_length, hl1]) hl2]
    simp only [List.append_assoc]
  have hs3 : store16 e
        (toBytes e 4 MAGIC ++ b1 ++ (toBytes e 2 (os.length % 65536) ++ mid ++ post)) 4
        (toU16 version)
      = .ok (encHeader e MAGIC (toU16 version) (os.length % 65536) ++ mid ++ post) := by
    rw [store16_append e _ b1 _ 4 _ (by simp only [toBytes_length]) hl1]
    simp only [encHeader, List.append_assoc]
  have hloop := serialize_loop_append e orders os [] rest
    (encHeader e MAGIC (toU16 version) (os.length % 65536)) mid post _ 0 sizeofPacketHeader
    (by rw [horders]; rfl) rfl (by rw [encHeader_length, sizeofPacketHeader]) rfl hmid
  unfold serialize_orders
  simp only [required_size_natCast os.length hint, toU16_natCast, Int.toNat_ofNat]
  rw [if_neg (by omega)]
  simp only [hs1, hs2, hs3, hloop, bind_ok]
  rw [hpost]

/-! ## `parse_packet` on the bytes of a packet -/

theorem parse_loop_append (e : Endian) (buffer : List Nat) :
    ∀ (os : List Order) (pre post : List Nat) (trades : Nat) (out : List Event),
      (∀ o ∈ os, o.wf) → trades = pre.length → buffer = pre ++ encOrders e os ++ post →
      parse_loop e buffer os.length trades out = .ok (out ++ os.map tradeEvent) := by
  intro os
  induction os with
  | nil =>
    intro pre post trades out _ _ _
    simp [parse_loop]
  | cons o os ih =>
    intro pre post trades out hwf htrades hbuf
    obtain ⟨hid, hprice, hqty⟩ := hwf o (List.mem_cons_self o os)
    have hl1 : load32 e buffer trades = .ok o.id := by
      rw [show buffer = pre ++ toBytes e 4 o.id
          ++ (toBytes e 4 o.Price ++ toBytes e 4 o.Quantity ++ encOrders e os ++ post) by
        rw [hbuf]; simp only [encOrders, encOrder, List.append_assoc]]
      rw [load32_append e pre _ trades o.id htrades, Nat.mod_eq_of_lt hid]
    have hl2 : load32 e buffer (trades + 4) = .ok o.Price := by
      rw [show buffer = (pre ++ toBytes e 4 o.id) ++ toBytes e 4 o.Price
          ++ (toBytes e 4 o.Quantity ++ encOrders e os ++ post) by
        rw [hbuf]; simp only [encOrders, encOrder, List.append_assoc]]
      rw [load32_append e _ _ (trades + 4) o.Price
        (by rw [List.length_append, toBytes_length, htrades]), Nat.mod_eq_of_lt hprice]
    have hl3 : load32 e buffer (trades + 8) = .ok o.Quantity := by
      rw [show buffer = (pre ++ toBytes e 4 o.id ++ toBytes e 4 o.Price) ++ toBytes e 4 o.Quantity
          ++ (encOrders e os ++ post) by
        rw [hbuf]; simp only [encOrders, encOrder, List.append_assoc]]
      rw [load32_append e _ _ (trades + 8) o.Quantity
        (by simp only [List.length_append, toBytes_length, htrades]), Nat.mod_eq_of_lt hqty]
    have hrec := ih (pre ++ encOrder e o) post (trades + sizeofOrder)
      (out ++ [.trade o.id o.Price o.Quantity])
      (fun p hp => hwf p (List.mem_cons_of_mem o hp))
      (by rw [List.length_append, encOrder_length, htrades, sizeofOrder])
      (by rw [hbuf]; simp only [encOrders, List.append_assoc])
    simp only [List.length_cons, parse_loop, hl1, hl2, hl3, bind_ok]
    rw [hrec]
    simp only [List.map_cons, tradeEvent, List.append_assoc, List.singleton_append]

theorem load_magic_encHeader (e : Endian) (m v c : Nat) (body : List Nat) :
    load32 e (encHeader e m v c ++ body) 0 = .ok (m % 2 ^ 32) := by
  rw [show encHeader e m v c ++ body = [] ++ toBytes e 4 m ++ (toBytes e 2 v ++ toBytes e 2 c ++ body) by
    simp only [encHeader, List.append_assoc, List.nil_append]]
  exact load32_append e [] _ 0 m rfl

theorem load_version_encHeader (e : Endian) (m v c : Nat) (body : List Nat) :
    load16 e (encHeader e m v c ++ body) 4 = .ok (v % 2 ^ 16) := by
  rw [show encHeader e m v c ++ body = toBytes e 4 m ++ toBytes e 2 v ++ (toBytes e 2 c ++ body) by
    simp only [encHeader, List.append_assoc]]
  exact load16_append e _ _ 4 v (by rw [toBytes_length])

theorem load_count_encHeader (e : Endian) (m v c : Nat) (body : List Nat) :
    load16 e (encHeader e m v c ++ body) 6 = .ok (c % 2 ^ 16) := by
  rw [show encHeader e m v c ++ body = (toBytes e 4 m ++ toBytes e 2 v) ++ toBytes e 2 c ++ body by
    simp only [encHeader, List.append_assoc]]
  exact load16_append e _ _ 6 c (by simp only [List.length_append, toBytes_length])

/-- The run of `parse_packet` on a header with the magic number and version 1, a
count field that holds `c`, and then the bytes of `c % 2 ^ 16` records. -/
theorem parse_packet_encoded (e : Endian) (c : Nat) (os : List Order) (post : List Nat)
    (hwf : ∀ o ∈ os, o.wf) (hc : os.length = c % 2 ^ 16) :
    parse_packet e (encHeader e MAGIC 1 c ++ encOrders e os ++ post)
      = .ok ⟨0, [.packetReceived, .magic MAGIC, .version 1, .count os.length]
          ++ os.map tradeEvent ++ [.complete]⟩ := by
  have hloop := parse_loop_append e (encHeader e MAGIC 1 c ++ encOrders e os ++ post)
    os (encHeader e MAGIC 1 c) post sizeofPacketHeader
    [.packetReceived, .magic MAGIC, .version 1, .count os.length] hwf
    (by rw [encHeader_length, sizeofPacketHeader]) rfl
  have hc2 : c % 65536 = os.length := by rw [hc]; norm_num
  unfold parse_packet
  simp only [List.append_assoc, load_magic_encHeader, load_version_encHeader,
    load_count_encHeader, bind_ok] at hloop ⊢
  simp only [hc2, MAGIC, LATEST_VERSION, ne_eq, Nat.reducePow, Nat.reduceMod,
    not_true_eq_false, if_false, List.singleton_append, List.cons_append, List.nil_append,
    bind_ok] at hloop ⊢
  rw [hloop]
  rfl

/-! ## C1: round trip -/

theorem toU16_one : toU16 1 = 1 := by decide

/-- A batch of 65536 records fits a buffer of `8 + 12 * 65536` bytes: the count
field of the header receives `65536 % 65536`. -/
theorem serialize_orders_65536 :
    serialize_orders .little (List.replicate 786440 0) 786440
        (List.replicate 65536 ⟨1, 2, 3⟩) 65536 1
      = .ok ⟨toInt (8 + 12 * 65536),
          encHeader .little MAGIC 1 (65536 % 65536)
            ++ encOrders .little (List.replicate 65536 ⟨1, 2, 3⟩)
            ++ (List.replicate 786440 0).drop (8 + 12 * 65536), []⟩ := by
  have hl : (List.replicate 65536 (⟨1, 2, 3⟩ : Order)).length = 65536 := List.length_replicate _ _
  have hs := serialize_orders_ok .little (List.replicate 786440 0) 786440
    (List.replicate 65536 ⟨1, 2, 3⟩) (List.replicate 65536 ⟨1, 2, 3⟩) [] 65536 1
    (List.append_nil _).symm (by rw [hl]; rfl) (by rw [hl]; norm_num)
    (by rw [hl]) (by rw [hl, List.length_replicate])
  rw [hl, toU16_one] at hs
  exact hs

/-- A packet whose count field holds 0 is parsed as an empty batch, whatever follows
the header. -/
theorem parse_packet_count_zero (e : Endian) (c : Nat) (hc : c % 2 ^ 16 = 0) (body : List Nat) :
    parse_packet e (encHeader e MAGIC 1 c ++ body)
      = .ok ⟨0, [.packetReceived, .magic 0xCAFEBABE, .version 1, .count 0, .complete]⟩ := by
  have hp := parse_packet_encoded e c [] body
    (fun o ho => absurd ho (List.not_mem_nil o)) hc.symm
  rw [encOrders_nil, List.append_nil] at hp
  rw [hp]
  rfl

theorem toInt_of_lt (x : Nat) (h : x < 2 ^ 31) : toInt x = (x : Int) := by
  unfold toInt
  split <;> omega

/-- C2 (as amended): for every sequence of `n` records with `8 + 12 * n` in the
range of `int` and every buffer large enough to hold the packet, the `int` returned
by `serialize_orders` equals `8 + 12 * n`, which is also the value `main` computes as
the expected size. -/
theorem C2_byte_count (e : Endian) (buffer : List Nat) (buffer_size : Nat)
    (orders : List Order) (version : Int)
    (hfit : 8 + 12 * orders.length < 2 ^ 31)
    (hsize : 8 + 12 * orders.length ≤ buffer_size)
    (hbuf : 8 + 12 * orders.length ≤ buffer.length) :
    (serialize_orders e buffer buffer_size orders orders.length version).map SerializeResult.ret
        = .ok (8 + 12 * (orders.length : Int))
      ∧ ((expected_size orders.length : Nat) : Int) = 8 + 12 * (orders.length : Int) := by
  have hs := serialize_orders_ok e buffer buffer_size orders orders [] orders.length version
    (List.append_nil orders).symm rfl (by omega) hsize hbuf
  constructor
  · rw [hs, map_ok, toInt_of_lt _ hfit]
    simp only [Nat.cast_add, Nat.cast_mul, Nat.cast_ofNat]
  · unfold expected_size
    rw [required_size_natCast _ (by omega)]
    simp only [Nat.cast_add, Nat.cast_mul, Nat.cast_ofNat]

/-- C2, witness: the two records `{1,100,5}`, `{2,250,3}` with version 1 give 32. -/
theorem C2_byte_count_witness :
    (serialize_orders .little (List.replicate 32 0) 32 [⟨1, 100, 5⟩, ⟨2, 250, 3⟩] 2 1).map
        SerializeResult.ret = .ok 32
      ∧ ((expected_size 2 : Nat) : Int) = 32 :=
  C2_byte_count .little (List.replicate 32 0) 32 [⟨1, 100, 5⟩, ⟨2, 250, 3⟩] 1
    (by decide) (by decide) (by decide)

/-- C2, counterexample: 178956970 records in a buffer of `8 + 12 * 178956970 = 2 ^ 31`
bytes. The size does not fit an `int`, and the value returned is `-2 ^ 31`. -/
theorem C2_counterexample :
    (serialize_orders .little (List.replicate 2147483648 0) 2147483648
        (List.replicate 178956970 ⟨1, 2, 3⟩) 178956970 1).map SerializeResult.ret
        = .ok (-2147483648)
      ∧ (-2147483648 : Int) ≠ 8 + 12 * 178956970 := by
  have hl : (List.replicate 178956970 (⟨1, 2, 3⟩ : Order)).length = 178956970 :=
    List.length_replicate _ _
  have hs := serialize_orders_ok .little (List.replicate 2147483648 0) 2147483648
    (List.replicate 178956970 ⟨1, 2, 3⟩) (List.replicate 178956970 ⟨1, 2, 3⟩) [] 178956970 1
    (List.append_nil _).symm (by rw [hl]; rfl) (by rw [hl]; norm_num)
    (by rw [hl]) (by rw [hl, List.length_replicate])
  rw [hl] at hs
  have hret : toInt (8 + 12 * 178956970) = -2147483648 := by decide
  constructor
  · rw [hs, map_ok, hret]
  · decide

/-! ## C3: a buffer that is too small -/

/-- C3: for every buffer, record sequence, `int` count and version, if
`buffer_size` is smaller than `8 + 12 * count` then `serialize_orders` returns -1
and leaves every byte of the buffer as it was. -/
theorem C3_capacity_rejection (e : Endian) (buffer : List Nat) (buffer_size : Nat)
    (orders : List Order) (count version : Int)
    (hcount : isInt count) (hsmall : (buffer_size : Int) < 8 + 12 * count) :
    serialize_orders e buffer buffer_size orders count version
      = .ok ⟨-1, buffer, [.memoryError]⟩ := by
  unfold isInt at hcount
  have hreq : (sizeofPacketHeader + toSizeT count * sizeofOrder) % 2 ^ 64 > buffer_size := by
    unfold toSizeT sizeofPacketHeader sizeofOrder
    omega
  unfold serialize_orders
  simp only [hreq, if_true]

/-- C3, witness: two records and a buffer of 31 bytes. -/
theorem C3_capacity_rejection_witness :
    isInt 2 ∧ ((31 : Nat) : Int) < 8 + 12 * 2 ∧
    serialize_orders .little (List.replicate 31 7) 31 [⟨1, 100, 5⟩, ⟨2, 250, 3⟩] 2 1
      = .ok ⟨-1, List.replicate 31 7, [.memoryError]⟩ :=
  ⟨by decide, by decide,
   C3_capacity_rejection .little (List.replicate 31 7) 31 [⟨1, 100, 5⟩, ⟨2, 250, 3⟩] 2 1
    (by decide) (by decide)⟩

/-! ## C4: the layout of the packet -/

/-- C5 (as amended): for every sequence of at most 65535 records that
`serialize_orders` encodes into a buffer that is large enough, the 16-bit count field
at offset 6 of the buffer equals the number of records written after the header. -/
theorem C5_header_count (e : Endian) (buffer : List Nat) (buffer_size : Nat)
    (orders : List Order) (version : Int)
    (hlen : orders.length ≤ 65535)
    (hsize : 8 + 12 * orders.length ≤ buffer_size)
    (hbuf : 8 + 12 * orders.length ≤ buffer.length) :
    written_count e buffer buffer_size orders orders.length version = .ok orders.length
      ∧ ∃ r, serialize_orders e buffer buffer_size orders orders.length version = .ok r
          ∧ r.buffer.drop 8 = encOrders e orders ++ buffer.drop (8 + 12 * orders.length) := by
  have hs := serialize_orders_ok e buffer buffer_size orders orders [] orders.length version
    (List.append_nil orders).symm rfl (by omega) hsize hbuf
  constructor
  · unfold written_count
    rw [hs, bind_ok]
    show load16 e (encHeader e MAGIC _ _ ++ _ ++ _) 6 = _
    rw [List.append_assoc, load_count_encHeader]
    have : orders.length % 65536 % 2 ^ 16 = orders.length := by omega
    rw [this]
  · refine ⟨_, hs, ?_⟩
    show List.drop 8 (encHeader e MAGIC _ _ ++ _ ++ _) = _
    rw [List.append_assoc, List.drop_left' (encHeader_length e _ _ _)]

/-- C5, witness: two records. -/
theorem C5_header_count_witness :
    written_count .little (List.replicate 32 0) 32 [⟨1, 100, 5⟩, ⟨2, 250, 3⟩] 2 1 = .ok 2
      ∧ ∃ r, serialize_orders .little (List.replicate 32 0) 32 [⟨1, 100, 5⟩, ⟨2, 250, 3⟩] 2 1
            = .ok r
          ∧ r.buffer.drop 8 = [1, 0, 0, 0, 100, 0, 0, 0, 5, 0, 0, 0,
              2, 0, 0, 0, 250, 0, 0, 0, 3, 0, 0, 0] :=
  C5_header_count .little (List.replicate 32 0) 32 [⟨1, 100, 5⟩, ⟨2, 250, 3⟩] 1
    (by decide) (by decide) (by decide)

/-- C5, counterexample: 65536 records are encoded successfully, all of them are
written after the header, and the count field at offset 6 holds 0. -/
theorem C5_counterexample :
    written_count .little (List.replicate 786440 0) 786440
        (List.replicate 65536 ⟨1, 2, 3⟩) 65536 1 = .ok 0 := by
  unfold written_count
  rw [serialize_orders_65536, bind_ok]
  show load16 .little (encHeader .little MAGIC _ _ ++ _ ++ _) 6 = _
  rw [List.append_assoc, load_count_encHeader]
  rfl

/-! ## C6: a corrupted magic number -/

theorem magic_xor_ne (k : Nat) (hk : k < 32) : (MAGIC ^^^ 2 ^ k) % 2 ^ 32 ≠ MAGIC := by
  unfold MAGIC
  interval_cases k <;> decide

/-- A packet whose magic field does not hold `0xCAFEBABE` is refused: `parse_packet`
returns -1 and prints no header field and no record. -/
theorem parse_packet_bad_magic (e : Endian) (buffer : List Nat) (m : Nat)
    (hm : load32 e buffer 0 = .ok m) (hne : m ≠ MAGIC) :
    parse_packet e buffer = .ok ⟨-1, [.packetReceived, .invalidPacket]⟩ := by
  unfold parse_packet
  simp only [hm, bind_ok, hne, ne_eq, not_false_eq_true, if_true]
  rfl

/-- C6: for every packet that `serialize_orders` encodes with version 1 and every bit
position `k < 32`, flipping bit `k` of the magic field, all other bytes unchanged,
makes `parse_packet` fail: it returns -1 and prints no record. -/
theorem C6_corrupted_magic (e : Endian) (buffer : List Nat) (buffer_size : Nat)
    (orders : List Order) (k : Nat)
    (hint : orders.length < 2 ^ 31) (hk : k < 32)
    (hsize : 8 + 12 * orders.length ≤ buffer_size)
    (hbuf : 8 + 12 * orders.length ≤ buffer.length) :
    ∃ r corrupted, serialize_orders e buffer buffer_size orders orders.length 1 = .ok r
      ∧ flip_magic_bit e r.buffer k = .ok corrupted
      ∧ corrupted.drop 4 = r.buffer.drop 4
      ∧ parse_packet e corrupted = .ok ⟨-1, [.packetReceived, .invalidPacket]⟩ := by
  have hs := serialize_orders_ok e buffer buffer_size orders orders [] orders.length 1
    (List.append_nil orders).symm rfl hint hsize hbuf
  have hshape : ∀ c : Nat, encHeader e MAGIC (toU16 1) c ++ encOrders e orders
        ++ buffer.drop (8 + 12 * orders.length)
      = [] ++ toBytes e 4 MAGIC ++ (toBytes e 2 (toU16 1) ++ toBytes e 2 c ++ encOrders e orders
        ++ buffer.drop (8 + 12 * orders.length)) := by
    intro c
    simp only [encHeader, List.append_assoc, List.nil_append]
  have hmod : MAGIC % 2 ^ 32 = MAGIC := by decide
  refine ⟨_, [] ++ toBytes e 4 (MAGIC ^^^ 2 ^ k) ++ (toBytes e 2 (toU16 1)
    ++ toBytes e 2 (orders.length % 65536) ++ encOrders e orders
    ++ buffer.drop (8 + 12 * orders.length)), hs, ?_, ?_, ?_⟩
  · unfold flip_magic_bit
    show (load32 e (encHeader e MAGIC _ _ ++ _ ++ _) 0 >>= _) = _
    rw [hshape, load32_append e [] _ 0 MAGIC rfl, bind_ok, hmod]
    exact store32_append e [] (toBytes e 4 MAGIC) _ 0 _ rfl (toBytes_length e 4 MAGIC)
  · show _ = List.drop 4 (encHeader e MAGIC _ _ ++ _ ++ _)
    rw [hshape, List.nil_append, List.nil_append,
      List.drop_left' (toBytes_length e 4 _), List.drop_left' (toBytes_length e 4 _)]
  · exact parse_packet_bad_magic e _ _ (load32_append e [] _ 0 _ rfl) (magic_xor_ne k hk)

/-- C6, witness: bit 31 of the magic field of a packet of two records. -/
theorem C6_corrupted_magic_witness :
    ∃ r corrupted,
      serialize_orders .little (List.replicate 32 0) 32 [⟨1, 100, 5⟩, ⟨2, 250, 3⟩] 2 1 = .ok r
      ∧ flip_magic_bit .little r.buffer 31 = .ok corrupted
      ∧ corrupted.drop 4 = r.buffer.drop 4
      ∧ parse_packet .little corrupted = .ok ⟨-1, [.packetReceived, .invalidPacket]⟩ :=
  C6_corrupted_magic .little (List.replicate 32 0) 32 [⟨1, 100, 5⟩, ⟨2, 250, 3⟩] 31
    (by decide) (by decide) (by decide) (by decide)

/-! ## C7: a version that is not supported -/

/-- C7: for every buffer whose header holds the magic `0xCAFEBABE` and a version
field different from 1, `parse_packet` fails: it returns -1 and prints no record,
whatever the count field and the bytes after the header are. -/
theorem C7_wrong_version (e : Endian) (buffer : List Nat) (v : Nat)
    (hm : load32 e buffer 0 = .ok 0xCAFEBABE) (hv : load16 e buffer 4 = .ok v)
    (hne : v ≠ LATEST_VERSION) :
    parse_packet e buffer = .ok ⟨-1, [.packetReceived, .invalidPacket]⟩ := by
  unfold parse_packet
  simp only [hm, hv, bind_ok, MAGIC, hne, ne_eq, not_true_eq_false, not_false_eq_true,
    if_true, if_false]
  rfl

/-- C7, witness: a packet of one record with version 2. -/
theorem C7_wrong_version_witness :
    load32 .little [0xBE, 0xBA, 0xFE, 0xCA, 2, 0, 1, 0, 1, 0, 0, 0, 100, 0, 0, 0, 5, 0, 0, 0] 0
        = .ok 0xCAFEBABE
      ∧ load16 .little [0xBE, 0xBA, 0xFE, 0xCA, 2, 0, 1, 0, 1, 0, 0, 0, 100, 0, 0, 0, 5, 0, 0, 0] 4
        = .ok 2
      ∧ parse_packet .little
          [0xBE, 0xBA, 0xFE, 0xCA, 2, 0, 1, 0, 1, 0, 0, 0, 100, 0, 0, 0, 5, 0, 0, 0]
        = .ok ⟨-1, [.packetReceived, .invalidPacket]⟩ :=
  ⟨by decide, by decide,
   C7_wrong_version .little
    [0xBE, 0xBA, 0xFE, 0xCA, 2, 0, 1, 0, 1, 0, 0, 0, 100, 0, 0, 0, 5, 0, 0, 0] 2
    (by decide) (by decide) (by decide)⟩

/-! ## C8: a truncated packet -/

theorem load32_fault (e : Endian) (buffer : List Nat) (off : Nat)
    (h : buffer.length < off + 4) : load32 e buffer off = .error (.outOfBoundsRead off 4) := by
  unfold load32 loadBytes
  rw [if_neg (by omega)]
  rfl

theorem load32_ok (e : Endian) (buffer : List Nat) (off : Nat)
    (h : off + 4 ≤ buffer.length) : ∃ v, load32 e buffer off = .ok v := by
  unfold load32 loadBytes
  rw [if_pos h]
  exact ⟨_, rfl⟩

theorem bind_error {α β : Type} (f : Fault) (g : α → Except Fault β) :
    (Except.error f >>= g) = Except.error f := rfl

/-- The loop of `parse_packet` has no bound on the offsets it reads: when the buffer
ends before the last of the records to read, it performs a read outside of the
buffer. -/
theorem parse_loop_fault (e : Endian) (buffer : List Nat) :
    ∀ (n trades : Nat) (out : List Event), 0 < n → buffer.length < trades + 12 * n →
      ∃ off, buffer.length < off + 4
        ∧ parse_loop e buffer n trades out = .error (.outOfBoundsRead off 4) := by
  intro n
  induction n with
  | zero => intro _ _ h; exact absurd h (Nat.lt_irrefl 0)
  | succ n ih =>
    intro trades out _ hshort
    by_cases h1 : trades + 4 ≤ buffer.length
    · obtain ⟨v1, hv1⟩ := load32_ok e buffer trades h1
      by_cases h2 : trades + 4 + 4 ≤ buffer.length
      · obtain ⟨v2, hv2⟩ := load32_ok e buffer (trades + 4) h2
        by_cases h3 : trades + 8 + 4 ≤ buffer.length
        · obtain ⟨v3, hv3⟩ := load32_ok e buffer (trades + 8) h3
          have hn : 0 < n := by
            rcases Nat.eq_zero_or_pos n with h0 | h0
            · subst h0; omega
            · exact h0
          obtain ⟨off, ho1, ho2⟩ := ih (trades + sizeofOrder) (out ++ [.trade v1 v2 v3]) hn
            (by rw [sizeofOrder]; omega)
          simp only [parse_loop, hv1, hv2, hv3, bind_ok]
          exact ⟨off, ho1, ho2⟩
        · have hf := load32_fault e buffer (trades + 8) (by omega)
          simp only [parse_loop, hv1, hv2, hf, bind_ok, bind_error]
          exact ⟨trades + 8, by omega, rfl⟩
      · have hf := load32_fault e buffer (trades + 4) (by omega)
        simp only [parse_loop, hv1, hf, bind_ok, bind_error]
        exact ⟨trades + 4, by omega, rfl⟩
    · have hf := load32_fault e buffer trades (by omega)
      simp only [parse_loop, hf, bind_error]
      exact ⟨trades, by omega, rfl⟩

/-- For every buffer with a valid header and a count field `c ≥ 1` that ends before
the last of the `c` records is complete, `parse_packet` does not return at all with
a failure result: it reads 4 bytes at an offset `off` with `off + 4` beyond the end of
the buffer. -/
theorem parse_packet_truncated_fault (e : Endian) (buffer : List Nat) (c : Nat)
    (hm : load32 e buffer 0 = .ok MAGIC) (hv : load16 e buffer 4 = .ok LATEST_VERSION)
    (hc : load16 e buffer 6 = .ok c) (hpos : 0 < c) (hshort : buffer.length < 8 + 12 * c) :
    ∃ off, buffer.length < off + 4
      ∧ parse_packet e buffer = .error (.outOfBoundsRead off 4) := by
  obtain ⟨off, ho1, ho2⟩ := parse_loop_fault e buffer c sizeofPacketHeader
    ([Event.packetReceived] ++ [.magic MAGIC, .version LATEST_VERSION, .count c]) hpos
    (by rw [sizeofPacketHeader]; exact hshort)
  refine ⟨off, ho1, ?_⟩
  unfold parse_packet
  simp only [hm, hv, hc, bind_ok, ne_eq, not_true_eq_false, if_false, ho2, bind_error]

/-- C8, the code at a failing input: the packet of the two records `{1,100,5}`,
`{2,250,3}` cut after 20 of its 32 bytes, in the middle of the batch. `parse_packet`
does not fail with a result of its own: it reads the 4 bytes at offset 20, beyond the
end of the input. -/
theorem C8_truncated_packet_read_out_of_bounds :
    parse_packet .little
        (List.take 20 [0xBE, 0xBA, 0xFE, 0xCA, 1, 0, 2, 0, 1, 0, 0, 0, 100, 0, 0, 0, 5, 0, 0, 0,
          2, 0, 0, 0, 250, 0, 0, 0, 3, 0, 0, 0])
      = .error (.outOfBoundsRead 20 4) := by
  decide

/-! ## C9: an input shorter than the header -/

/-- For every input of fewer than 4 bytes `parse_packet` reads the magic field
beyond the end of the input. -/
theorem parse_packet_short_fault (e : Endian) (buffer : List Nat) (h : buffer.length < 4) :
    parse_packet e buffer = .error (.outOfBoundsRead 0 4) := by
  unfold parse_packet
  rw [load32_fault e buffer 0 (by omega)]
  rfl

/-- C9, the code at a failing input: on the empty input `parse_packet` does not fail
with a result of its own: it reads the 4 bytes of the magic field at offset 0, beyond
the end of the input. -/
theorem C9_short_input_read_out_of_bounds :
    parse_packet .little [] = .error (.outOfBoundsRead 0 4) := by
  decide

/-! ## C10: the empty batch -/

/-- C10: for every buffer of at least 8 bytes, `serialize_orders` with zero records
and version 1 succeeds and returns 8, and `parse_packet` on the result returns 0 and
prints count 0 and no record. -/
theorem C10_empty_batch (e : Endian) (buffer : List Nat) (buffer_size : Nat)
    (hsize : 8 ≤ buffer_size) (hbuf : 8 ≤ buffer.length) :
    round_trip e buffer buffer_size [] 0 1
      = .ok (⟨8, encHeader e MAGIC 1 0 ++ buffer.drop 8, []⟩,
             ⟨0, [.packetReceived, .magic 0xCAFEBABE, .version 1, .count 0, .complete]⟩) := by
  have hs := serialize_orders_ok e buffer buffer_size [] [] [] 0 1 rfl rfl (by decide)
    hsize hbuf
  rw [toU16_one, encOrders_nil, List.append_nil] at hs
  unfold round_trip
  rw [hs, bind_ok]
  show (parse_packet e (encHeader e MAGIC 1 0 ++ List.drop 8 buffer) >>= _) = _
  rw [parse_packet_count_zero e 0 rfl, bind_ok]
  rfl

/-- C10, witness: a buffer of 10 bytes on a big-endian host. -/
theorem C10_empty_batch_witness :
    round_trip .big (List.replicate 10 7) 10 [] 0 1
      = .ok (⟨8, [0xCA, 0xFE, 0xBA, 0xBE, 0, 1, 0, 0, 7, 7], []⟩,
             ⟨0, [.packetReceived, .magic 0xCAFEBABE, .version 1, .count 0, .complete]⟩) :=
  C10_empty_batch .big (List.replicate 10 7) 10 (by decide) (by decide)

/-! ## The bytes after the packet -/

/-- A byte at an index after a prefix of `k` bytes that replaces the first `k` bytes
of a buffer is the byte of the buffer at that index. -/
theorem getElem?_append_drop (pre buffer : List Nat) (k j : Nat)
    (hpre : pre.length = k) (hj : k ≤ j) :
    (pre ++ buffer.drop k)[j]? = buffer[j]? := by
  rw [List.getElem?_append_right (by omega), List.getElem?_drop, hpre]
  congr 1
  omega

/-- With the records in an object of their own: for every call of `serialize_orders`
with `n` records and a buffer of at least `8 + 12 * n` bytes, the call succeeds, the
buffer keeps its length, and every byte at an index from `8 + 12 * n` on has the same
value after the call as before it. -/
theorem serialize_orders_frame (e : Endian) (buffer : List Nat) (buffer_size : Nat)
    (orders : List Order) (version : Int)
    (hint : orders.length < 2 ^ 31)
    (hsize : 8 + 12 * orders.length ≤ buffer_size)
    (hbuf : 8 + 12 * orders.length ≤ buffer.length) :
    ∃ r, serialize_orders e buffer buffer_size orders orders.length version = .ok r
      ∧ r.buffer.length = buffer.length
      ∧ ∀ j, 8 + 12 * orders.length ≤ j → r.buffer[j]? = buffer[j]? := by
  have hs := serialize_orders_ok e buffer buffer_size orders orders [] orders.length version
    (List.append_nil orders).symm rfl hint hsize hbuf
  have hpre : (encHeader e MAGIC (toU16 version) (orders.length % 65536)
      ++ encOrders e orders).length = 8 + 12 * orders.length := by
    rw [List.length_append, encHeader_length, encOrders_length]
  refine ⟨_, hs, ?_, ?_⟩
  · show (_ ++ _ ++ List.drop _ buffer).length = _
    rw [List.length_append, hpre, List.length_drop]
    omega
  · intro j hj
    exact getElem?_append_drop _ buffer _ j hpre hj

/-- Two records in a buffer of 36 bytes: the last 4 bytes keep the value 7. -/
theorem serialize_orders_frame_example :
    ∃ r, serialize_orders .little (List.replicate 36 7) 36 [⟨1, 100, 5⟩, ⟨2, 250, 3⟩] 2 1 = .ok r
      ∧ r.buffer.length = 36
      ∧ ∀ j, 32 ≤ j → r.buffer[j]? = (List.replicate 36 7)[j]? :=
  serialize_orders_frame .little (List.replicate 36 7) 36
    [⟨1, 100, 5⟩, ⟨2, 250, 3⟩] 1 (by decide) (by decide) (by decide)

/-! ## C14: the previous contents of the buffer -/

/-- C16: for every negative `int` count and every `buffer_size` below `2 ^ 63`, the
required size `8 + count * 12`, computed in 64-bit unsigned arithmetic, exceeds
`buffer_size`, so `serialize_orders` returns -1 and leaves the buffer unchanged. -/
theorem C16_negative_count_rejected (e : Endian) (buffer : List Nat) (buffer_size : Nat)
    (orders : List Order) (count version : Int)
    (hcount : isInt count) (hneg : count < 0) (hsize : buffer_size < 2 ^ 63) :
    (sizeofPacketHeader + toSizeT count * sizeofOrder) % 2 ^ 64 > buffer_size
      ∧ serialize_orders e buffer buffer_size orders count version
        = .ok ⟨-1, buffer, [.memoryError]⟩ := by
  unfold isInt at hcount
  obtain ⟨k, hk⟩ : ∃ k : Nat, count = -(k : Int) := ⟨count.natAbs, by omega⟩
  have hconv : toSizeT count = 2 ^ 64 - k := by
    unfold toSizeT
    omega
  have hreq : (sizeofPacketHeader + toSizeT count * sizeofOrder) % 2 ^ 64 > buffer_size := by
    rw [hconv, sizeofPacketHeader, sizeofOrder]
    have hk1 : 1 ≤ k := by omega
    have hk2 : k ≤ 2 ^ 31 := by omega
    have hsplit : 8 + (2 ^ 64 - k) * 12 = 11 * 2 ^ 64 + (2 ^ 64 + 8 - 12 * k) := by omega
    have hlt : 2 ^ 64 + 8 - 12 * k < 2 ^ 64 := by omega
    rw [hsplit, Nat.mul_comm 11 (2 ^ 64), Nat.mul_add_mod, Nat.mod_eq_of_lt hlt]
    omega
  refine ⟨hreq, ?_⟩
  unfold serialize_orders
  simp only [hreq, if_true]

/-- C16, witness: count -1 and a buffer of 32 bytes. -/
theorem C16_negative_count_rejected_witness :
    isInt (-1) ∧ (-1 : Int) < 0 ∧ (32 : Nat) < 2 ^ 63
      ∧ (sizeofPacketHeader + toSizeT (-1) * sizeofOrder) % 2 ^ 64 > 32
      ∧ serialize_orders .little (List.replicate 32 7) 32 [⟨1, 100, 5⟩] (-1) 1
        = .ok ⟨-1, List.replicate 32 7, [.memoryError]⟩ :=
  ⟨by decide, by decide, by decide,
   C16_negative_count_rejected .little (List.replicate 32 7) 32 [⟨1, 100, 5⟩] (-1) 1
    (by decide) (by decide) (by decide)⟩

/-! ## `parse_packet` on an arbitrary buffer that is long enough -/

theorem load16_ok (e : Endian) (buffer : List Nat) (off : Nat)
    (h : off + 2 ≤ buffer.length) : ∃ v, load16 e buffer off = .ok v := by
  unfold load16 loadBytes
  rw [if_pos h]
  exact ⟨_, rfl⟩

/-- The loop of `parse_packet` on a buffer that holds all the records to read: it
prints one line for each of them, with the values found at the offsets of its three
fields. -/
theorem parse_loop_ok (e : Endian) (buffer : List Nat) :
    ∀ (n trades : Nat) (out : List Event), trades + 12 * n ≤ buffer.length →
      ∃ recs : List Order, recs.length = n
        ∧ parse_loop e buffer n trades out = .ok (out ++ recs.map tradeEvent)
        ∧ ∀ (i : Nat) (hi : i < recs.length),
            load32 e buffer (trades + 12 * i) = .ok (recs.get ⟨i, hi⟩).id
            ∧ load32 e buffer (trades + 12 * i + 4) = .ok (recs.get ⟨i, hi⟩).Price
            ∧ load32 e buffer (trades + 12 * i + 8) = .ok (recs.get ⟨i, hi⟩).Quantity := by
  intro n
  induction n with
  | zero =>
    intro trades out _
    exact ⟨[], rfl, by simp [parse_loop], fun i hi => absurd hi (Nat.not_lt_zero i)⟩
  | succ n ih =>
    intro trades out hlen
    obtain ⟨v1, hv1⟩ := load32_ok e buffer trades (by omega)
    obtain ⟨v2, hv2⟩ := load32_ok e buffer (trades + 4) (by omega)
    obtain ⟨v3, hv3⟩ := load32_ok e buffer (trades + 8) (by omega)
    obtain ⟨recs, hrl, hrun, hfields⟩ := ih (trades + sizeofOrder)
      (out ++ [.trade v1 v2 v3]) (by rw [sizeofOrder]; omega)
    refine ⟨⟨v1, v2, v3⟩ :: recs, by rw [List.length_cons, hrl], ?_, ?_⟩
    · simp only [parse_loop, hv1, hv2, hv3, bind_ok, hrun, List.map_cons, tradeEvent,
        List.append_assoc, List.singleton_append]
    · intro i hi
      cases i with
      | zero => exact ⟨hv1, hv2, hv3⟩
      | succ k =>
        have hk : k < recs.length := Nat.lt_of_succ_lt_succ hi
        have h := hfields k hk
        rw [sizeofOrder, show trades + 12 + 12 * k = trades + 12 * (k + 1) by omega] at h
        exact h

/-- A packet with the magic number that holds a version other than 1 is refused. -/
theorem parse_packet_bad_version (e : Endian) (buffer : List Nat) (v : Nat)
    (hm : load32 e buffer 0 = .ok MAGIC) (hv : load16 e buffer 4 = .ok v)
    (hne : v ≠ LATEST_VERSION) :
    parse_packet e buffer = .ok ⟨-1, [.packetReceived, .invalidPacket]⟩ := by
  unfold parse_packet
  simp only [hm, hv, bind_ok, hne, ne_eq, not_true_eq_false, not_false_eq_true,
    if_true, if_false]
  rfl

/-- The run of `parse_packet` on an arbitrary buffer whose header holds the magic
number, version 1 and a count `c`, and which is long enough for `c` records. -/
theorem parse_packet_ok (e : Endian) (buffer : List Nat) (c : Nat)
    (hm : load32 e buffer 0 = .ok MAGIC) (hv : load16 e buffer 4 = .ok LATEST_VERSION)
    (hc : load16 e buffer 6 = .ok c) (hlen : 8 + 12 * c ≤ buffer.length) :
    ∃ recs : List Order, recs.length = c
      ∧ parse_packet e buffer
          = .ok ⟨0, [.packetReceived, .magic 0xCAFEBABE, .version 1, .count c]
              ++ recs.map tradeEvent ++ [.complete]⟩
      ∧ ∀ (i : Nat) (hi : i < recs.length),
          load32 e buffer (8 + 12 * i) = .ok (recs.get ⟨i, hi⟩).id
          ∧ load32 e buffer (8 + 12 * i + 4) = .ok (recs.get ⟨i, hi⟩).Price
          ∧ load32 e buffer (8 + 12 * i + 8) = .ok (recs.get ⟨i, hi⟩).Quantity := by
  obtain ⟨recs, hrl, hrun, hfields⟩ := parse_loop_ok e buffer c sizeofPacketHeader
    ([Event.packetReceived] ++ [.magic MAGIC, .version LATEST_VERSION, .count c])
    (by rw [sizeofPacketHeader]; exact hlen)
  refine ⟨recs, hrl, ?_, hfields⟩
  unfold parse_packet
  simp only [hm, hv, hc, bind_ok, ne_eq, not_true_eq_false, if_false, hrun]
  rfl

/-! ## Bytes after the last record -/

theorem loadBytes_take_append (buffer tail : List Nat) (k off w : Nat)
    (h1 : off + w ≤ k) (h2 : k ≤ buffer.length) :
    loadBytes (buffer.take k ++ tail) off w = loadBytes buffer off w := by
  have hk : (buffer.take k).length = k := List.length_take_of_le h2
  unfold loadBytes
  rw [if_pos (by rw [List.length_append, hk]; omega), if_pos (by omega),
    List.drop_append_of_le_length (by rw [hk]; omega),
    List.take_append_of_le_length (by rw [List.length_drop, hk]; omega),
    List.drop_take, List.take_take, Nat.min_eq_left (by omega)]

theorem load32_take_append (e : Endian) (buffer tail : List Nat) (k off : Nat)
    (h1 : off + 4 ≤ k) (h2 : k ≤ buffer.length) :
    load32 e (buffer.take k ++ tail) off = load32 e buffer off := by
  unfold load32
  rw [loadBytes_take_append buffer tail k off 4 h1 h2]

theorem load16_take_append (e : Endian) (buffer tail : List Nat) (k off : Nat)
    (h1 : off + 2 ≤ k) (h2 : k ≤ buffer.length) :
    load16 e (buffer.take k ++ tail) off = load16 e buffer off := by
  unfold load16
  rw [loadBytes_take_append buffer tail k off 2 h1 h2]

/-- The loop of `parse_packet` gives the same result on two buffers that agree on
every 32-bit field it reads. -/
theorem parse_loop_congr (e : Endian) (b1 b2 : List Nat) :
    ∀ (n trades : Nat) (out : List Event),
      (∀ off, trades ≤ off → off + 4 ≤ trades + 12 * n → load32 e b1 off = load32 e b2 off) →
      parse_loop e b1 n trades out = parse_loop e b2 n trades out := by
  intro n
  induction n with
  | zero => intro _ _ _; rfl
  | succ n ih =>
    intro trades out h
    have hrec : ∀ out2, parse_loop e b1 n (trades + sizeofOrder) out2
        = parse_loop e b2 n (trades + sizeofOrder) out2 := fun out2 =>
      ih (trades + sizeofOrder) out2 (fun off ho1 ho2 =>
        h off (by rw [sizeofOrder] at ho1; omega) (by rw [sizeofOrder] at ho2; omega))
    simp only [parse_loop, h trades (Nat.le_refl _) (by omega),
      h (trades + 4) (by omega) (by omega), h (trades + 8) (by omega) (by omega), hrec]

/-- The bytes that follow the last of the `c` records have no effect on
`parse_packet`. -/
theorem parse_packet_take_append (e : Endian) (buffer tail : List Nat) (c : Nat)
    (hc : load16 e buffer 6 = .ok c) (hlen : 8 + 12 * c ≤ buffer.length) :
    parse_packet e (buffer.take (8 + 12 * c) ++ tail) = parse_packet e buffer := by
  have h0 := load32_take_append e buffer tail (8 + 12 * c) 0 (by omega) hlen
  have h4 := load16_take_append e buffer tail (8 + 12 * c) 4 (by omega) hlen
  have h6 := load16_take_append e buffer tail (8 + 12 * c) 6 (by omega) hlen
  have hloop : ∀ out, parse_loop e (buffer.take (8 + 12 * c) ++ tail) c sizeofPacketHeader out
      = parse_loop e buffer c sizeofPacketHeader out := fun out =>
    parse_loop_congr e _ buffer c sizeofPacketHeader out (fun off _ ho2 =>
      load32_take_append e buffer tail (8 + 12 * c) off
        (by rw [sizeofPacketHeader] at ho2; omega) hlen)
  unfold parse_packet
  simp only [h0, h4, h6, hc, bind_ok, hloop]

/-! ## C12: what decides the acceptance of a packet -/

/-- C12: for every buffer that is long enough to hold its header and the `c`
records its count field announces, `parse_packet` returns 0 or -1, and it returns 0
if and only if the magic field holds `0xCAFEBABE` and the version field holds 1;
the count and the bytes of the records have no part in it. -/
theorem C12_acceptance_by_header (e : Endian) (buffer : List Nat) (c : Nat)
    (hc : load16 e buffer 6 = .ok c) (hlen : 8 + 12 * c ≤ buffer.length) :
    ∃ p, parse_packet e buffer = .ok p
      ∧ (p.ret = 0 ∨ p.ret = -1)
      ∧ (p.ret = 0 ↔
          load32 e buffer 0 = .ok 0xCAFEBABE ∧ load16 e buffer 4 = .ok LATEST_VERSION) := by
  obtain ⟨m, hm⟩ := load32_ok e buffer 0 (by omega)
  obtain ⟨v, hv⟩ := load16_ok e buffer 4 (by omega)
  by_cases hmagic : m = MAGIC
  · by_cases hversion : v = LATEST_VERSION
    · subst hmagic hversion
      obtain ⟨recs, _, hrun, _⟩ := parse_packet_ok e buffer c hm hv hc hlen
      exact ⟨_, hrun, Or.inl rfl, fun _ => ⟨hm, hv⟩, fun _ => rfl⟩
    · subst hmagic
      refine ⟨_, parse_packet_bad_version e buffer v hm hv hversion, Or.inr rfl, ?_, ?_⟩
      · intro h
        exact absurd h (by decide)
      · intro h
        rw [hv] at h
        exact absurd (Except.ok.inj h.2) hversion
  · refine ⟨_, parse_packet_bad_magic e buffer m hm hmagic, Or.inr rfl, ?_, ?_⟩
    · intro h
      exact absurd h (by decide)
    · intro h
      rw [hm] at h
      exact absurd (Except.ok.inj h.1) hmagic

/-- C12, witness: a valid header with count 1 and a record whose fields are all
`0xFFFFFFFF`. -/
theorem C12_acceptance_by_header_witness :
    load16 .little [0xBE, 0xBA, 0xFE, 0xCA, 1, 0, 1, 0,
        255, 255, 255, 255, 255, 255, 255, 255, 255, 255, 255, 255] 6 = .ok 1
      ∧ ∃ p, parse_packet .little [0xBE, 0xBA, 0xFE, 0xCA, 1, 0, 1, 0,
            255, 255, 255, 255, 255, 255, 255, 255, 255, 255, 255, 255] = .ok p
          ∧ (p.ret = 0 ∨ p.ret = -1)
          ∧ (p.ret = 0 ↔
              load32 .little [0xBE, 0xBA, 0xFE, 0xCA, 1, 0, 1, 0,
                255, 255, 255, 255, 255, 255, 255, 255, 255, 255, 255, 255] 0 = .ok 0xCAFEBABE
              ∧ load16 .little [0xBE, 0xBA, 0xFE, 0xCA, 1, 0, 1, 0,
                255, 255, 255, 255, 255, 255, 255, 255, 255, 255, 255, 255] 4
                  = .ok LATEST_VERSION) :=
  ⟨by decide,
   C12_acceptance_by_header .little [0xBE, 0xBA, 0xFE, 0xCA, 1, 0, 1, 0,
      255, 255, 255, 255, 255, 255, 255, 255, 255, 255, 255, 255] 1 (by decide) (by decide)⟩

/-! ## C13: the records that are decoded -/

/-- C13: for every buffer with magic `0xCAFEBABE`, version 1 and count field `c`
that is at least `8 + 12 * c` bytes long, `parse_packet` returns 0 and prints exactly
`c` records; record `i` is the triple of 32-bit values stored at offsets
`8 + 12 * i`, `8 + 12 * i + 4` and `8 + 12 * i + 8`; and the bytes that follow
record `c` have no effect on the result. -/
theorem C13_reads_exactly_count_records (e : Endian) (buffer : List Nat) (c : Nat)
    (hm : load32 e buffer 0 = .ok 0xCAFEBABE) (hv : load16 e buffer 4 = .ok 1)
    (hc : load16 e buffer 6 = .ok c) (hlen : 8 + 12 * c ≤ buffer.length) :
    ∃ recs : List Order, recs.length = c
      ∧ parse_packet e buffer
          = .ok ⟨0, [.packetReceived, .magic 0xCAFEBABE, .version 1, .count c]
              ++ recs.map tradeEvent ++ [.complete]⟩
      ∧ (∀ (i : Nat) (hi : i < recs.length),
          load32 e buffer (8 + 12 * i) = .ok (recs.get ⟨i, hi⟩).id
          ∧ load32 e buffer (8 + 12 * i + 4) = .ok (recs.get ⟨i, hi⟩).Price
          ∧ load32 e buffer (8 + 12 * i + 8) = .ok (recs.get ⟨i, hi⟩).Quantity)
      ∧ ∀ tail, parse_packet e (buffer.take (8 + 12 * c) ++ tail) = parse_packet e buffer := by
  obtain ⟨recs, hrl, hrun, hfields⟩ := parse_packet_ok e buffer c hm hv hc hlen
  exact ⟨recs, hrl, hrun, hfields, fun tail => parse_packet_take_append e buffer tail c hc hlen⟩

/-- C13, witness: a packet with count 1 that is followed by the 12 bytes of a second
record. -/
theorem C13_reads_exactly_count_records_witness :
    ∃ recs : List Order, recs.length = 1
      ∧ parse_packet .little [0xBE, 0xBA, 0xFE, 0xCA, 1, 0, 1, 0, 1, 0, 0, 0, 100, 0, 0, 0,
            5, 0, 0, 0, 2, 0, 0, 0, 250, 0, 0, 0, 3, 0, 0, 0]
          = .ok ⟨0, [.packetReceived, .magic 0xCAFEBABE, .version 1, .count 1]
              ++ recs.map tradeEvent ++ [.complete]⟩
      ∧ (∀ (i : Nat) (hi : i < recs.length),
          load32 .little [0xBE, 0xBA, 0xFE, 0xCA, 1, 0, 1, 0, 1, 0, 0, 0, 100, 0, 0, 0,
            5, 0, 0, 0, 2, 0, 0, 0, 250, 0, 0, 0, 3, 0, 0, 0] (8 + 12 * i)
              = .ok (recs.get ⟨i, hi⟩).id
          ∧ load32 .little [0xBE, 0xBA, 0xFE, 0xCA, 1, 0, 1, 0, 1, 0, 0, 0, 100, 0, 0, 0,
            5, 0, 0, 0, 2, 0, 0, 0, 250, 0, 0, 0, 3, 0, 0, 0] (8 + 12 * i + 4)
              = .ok (recs.get ⟨i, hi⟩).Price
          ∧ load32 .little [0xBE, 0xBA, 0xFE, 0xCA, 1, 0, 1, 0, 1, 0, 0, 0, 100, 0, 0, 0,
            5, 0, 0, 0, 2, 0, 0, 0, 250, 0, 0, 0, 3, 0, 0, 0] (8 + 12 * i + 8)
              = .ok (recs.get ⟨i, hi⟩).Quantity)
      ∧ ∀ tail, parse_packet .little
            (List.take (8 + 12 * 1) [0xBE, 0xBA, 0xFE, 0xCA, 1, 0, 1, 0, 1, 0, 0, 0, 100, 0, 0, 0,
              5, 0, 0, 0, 2, 0, 0, 0, 250, 0, 0, 0, 3, 0, 0, 0] ++ tail)
          = parse_packet .little [0xBE, 0xBA, 0xFE, 0xCA, 1, 0, 1, 0, 1, 0, 0, 0, 100, 0, 0, 0,
              5, 0, 0, 0, 2, 0, 0, 0, 250, 0, 0, 0, 3, 0, 0, 0] :=
  C13_reads_exactly_count_records .little [0xBE, 0xBA, 0xFE, 0xCA, 1, 0, 1, 0, 1, 0, 0, 0,
      100, 0, 0, 0, 5, 0, 0, 0, 2, 0, 0, 0, 250, 0, 0, 0, 3, 0, 0, 0] 1
    (by decide) (by decide) (by decide) (by decide)

/-! ## C15: the version field -/

/-- C15: for every `int` version `v` and every sequence of records that fits the
buffer, the version field that `serialize_orders` stores is `v mod 65536`, and
`parse_packet` accepts the resulting packet (returns 0) if and only if
`v mod 65536 = 1`. -/
theorem C15_version_narrowed (e : Endian) (buffer : List Nat) (buffer_size : Nat)
    (orders : List Order) (v : Int)
    (hint : orders.length < 2 ^ 31)
    (hsize : 8 + 12 * orders.length ≤ buffer_size)
    (hbuf : 8 + 12 * orders.length ≤ buffer.length) :
    ∃ r p, serialize_orders e buffer buffer_size orders orders.length v = .ok r
      ∧ load16 e r.buffer 4 = .ok (v % 65536).toNat
      ∧ parse_packet e r.buffer = .ok p
      ∧ (p.ret = 0 ∨ p.ret = -1)
      ∧ (p.ret = 0 ↔ v % 65536 = 1) := by
  have hs := serialize_orders_ok e buffer buffer_size orders orders [] orders.length v
    (List.append_nil orders).symm rfl hint hsize hbuf
  have hm : load32 e (encHeader e MAGIC (toU16 v) (orders.length % 65536) ++ encOrders e orders
      ++ buffer.drop (8 + 12 * orders.length)) 0 = .ok MAGIC := by
    rw [List.append_assoc, load_magic_encHeader]
    rfl
  have hv : load16 e (encHeader e MAGIC (toU16 v) (orders.length % 65536) ++ encOrders e orders
      ++ buffer.drop (8 + 12 * orders.length)) 4 = .ok (toU16 v) := by
    rw [List.append_assoc, load_version_encHeader]
    have : toU16 v % 2 ^ 16 = toU16 v := by unfold toU16; omega
    rw [this]
  have hc : load16 e (encHeader e MAGIC (toU16 v) (orders.length % 65536) ++ encOrders e orders
      ++ buffer.drop (8 + 12 * orders.length)) 6 = .ok (orders.length % 65536) := by
    rw [List.append_assoc, load_count_encHeader]
    have : orders.length % 65536 % 2 ^ 16 = orders.length % 65536 := by omega
    rw [this]
  have hlen : 8 + 12 * (orders.length % 65536)
      ≤ (encHeader e MAGIC (toU16 v) (orders.length % 65536) ++ encOrders e orders
        ++ buffer.drop (8 + 12 * orders.length)).length := by
    rw [List.length_append, List.length_append, encHeader_length, encOrders_length,
      List.length_drop]
    omega
  have hfield : toU16 v = (v % 65536).toNat := rfl
  by_cases hversion : toU16 v = LATEST_VERSION
  · have hv1 := hv.trans (congrArg Except.ok hversion)
    obtain ⟨recs, _, hrun, _⟩ := parse_packet_ok e _ _ hm hv1 hc hlen
    refine ⟨_, _, hs, hv, hrun, Or.inl rfl, fun _ => ?_, fun _ => rfl⟩
    rw [hfield, LATEST_VERSION] at hversion
    omega
  · refine ⟨_, _, hs, hv, parse_packet_bad_version e _ _ hm hv hversion, Or.inr rfl, ?_, ?_⟩
    · intro h
      exact absurd h (by decide)
    · intro h
      rw [hfield, LATEST_VERSION] at hversion
      omega

/-- C15, witness: version 65537 is stored as 1 and the packet is accepted. -/
theorem C15_version_narrowed_witness :
    ∃ r p, serialize_orders .little (List.replicate 32 0) 32 [⟨1, 100, 5⟩, ⟨2, 250, 3⟩] 2 65537
        = .ok r
      ∧ load16 .little r.buffer 4 = .ok 1
      ∧ parse_packet .little r.buffer = .ok p
      ∧ (p.ret = 0 ∨ p.ret = -1)
      ∧ (p.ret = 0 ↔ (65537 : Int) % 65536 = 1) :=
  C15_version_narrowed .little (List.replicate 32 0) 32 [⟨1, 100, 5⟩, ⟨2, 250, 3⟩] 65537
    (by decide) (by decide) (by decide)

/-! ## Stores and loads in one address space -/

/-- A store of bytes inside the memory succeeds, keeps the length of the memory and
changes no byte outside of the range it writes. -/
theorem storeBytes_frame (mem : List Nat) (off : Nat) (bs : List Nat)
    (h : off + bs.length ≤ mem.length) :
    ∃ mem2, storeBytes mem off bs = .ok mem2 ∧ mem2.length = mem.length
      ∧ ∀ j, (j < off ∨ off + bs.length ≤ j) → mem2[j]? = mem[j]? := by
  have htake : (mem.take off).length = off := List.length_take_of_le (by omega)
  refine ⟨mem.take off ++ bs ++ mem.drop (off + bs.length), ?_, ?_, ?_⟩
  · unfold storeBytes
    rw [if_pos h]
  · rw [List.length_append, List.length_append, htake, List.length_drop]
    omega
  · intro j hj
    rcases hj with hj | hj
    · rw [List.append_assoc, List.getElem?_append_left (by rw [htake]; exact hj),
        List.getElem?_take_of_lt hj]
    · exact getElem?_append_drop _ mem _ j (by rw [List.length_append, htake]) hj

theorem store32_frame (e : Endian) (mem : List Nat) (off v : Nat) (h : off + 4 ≤ mem.length) :
    ∃ mem2, store32 e mem off v = .ok mem2 ∧ mem2.length = mem.length
      ∧ ∀ j, (j < off ∨ off + 4 ≤ j) → mem2[j]? = mem[j]? := by
  have hb := storeBytes_frame mem off (toBytes e 4 v) (by rw [toBytes_length]; exact h)
  rw [toBytes_length] at hb
  exact hb

theorem store16_frame (e : Endian) (mem : List Nat) (off v : Nat) (h : off + 2 ≤ mem.length) :
    ∃ mem2, store16 e mem off v = .ok mem2 ∧ mem2.length = mem.length
      ∧ ∀ j, (j < off ∨ off + 2 ≤ j) → mem2[j]? = mem[j]? := by
  have hb := storeBytes_frame mem off (toBytes e 2 v) (by rw [toBytes_length]; exact h)
  rw [toBytes_length] at hb
  exact hb

/-- A load of a 32-bit field gives the same result in two memories of the same
length that agree on the 4 bytes of the field. -/
theorem load32_congr (e : Endian) (m1 m2 : List Nat) (off : Nat)
    (hl : m1.length = m2.length)
    (h : ∀ j, off ≤ j → j < off + 4 → m1[j]? = m2[j]?) :
    load32 e m1 off = load32 e m2 off := by
  have hbytes : (m1.drop off).take 4 = (m2.drop off).take 4 := by
    apply List.ext_getElem?
    intro k
    by_cases hk : k < 4
    · rw [List.getElem?_take_of_lt hk, List.getElem?_take_of_lt hk, List.getElem?_drop,
        List.getElem?_drop]
      exact h (off + k) (by omega) (by omega)
    · rw [List.getElem?_take_eq_none (by omega), List.getElem?_take_eq_none (by omega)]
  unfold load32 loadBytes
  rw [hl, hbytes]

/-- The loop of `serialize_orders` in one address space, when the records to read
and the bytes to write are inside the memory: it runs to its end, keeps the length of
the memory and changes no byte outside of the `12 * n` bytes from `payload` on. The
record array may overlap these bytes. -/
theorem serialize_loop_mem_frame (e : Endian) (orders : Nat) :
    ∀ (n i payload : Nat) (mem : List Nat),
      payload + 12 * n ≤ mem.length → orders + 12 * (i + n) ≤ mem.length →
      ∃ mem2, serialize_loop_mem e orders n i payload mem = .ok mem2
        ∧ mem2.length = mem.length
        ∧ ∀ j, (j < payload ∨ payload + 12 * n ≤ j) → mem2[j]? = mem[j]? := by
  intro n
  induction n with
  | zero =>
    intro i payload mem _ _
    exact ⟨mem, rfl, rfl, fun _ _ => rfl⟩
  | succ n ih =>
    intro i payload mem hpay hord
    obtain ⟨v1, hv1⟩ := load32_ok e mem (orders + 12 * i) (by omega)
    obtain ⟨m1, hs1, hl1, hf1⟩ := store32_frame e mem payload v1 (by omega)
    obtain ⟨v2, hv2⟩ := load32_ok e m1 (orders + 12 * i + 4) (by omega)
    obtain ⟨m2, hs2, hl2, hf2⟩ := store32_frame e m1 (payload + 4) v2 (by omega)
    obtain ⟨v3, hv3⟩ := load32_ok e m2 (orders + 12 * i + 8) (by omega)
    obtain ⟨m3, hs3, hl3, hf3⟩ := store32_frame e m2 (payload + 8) v3 (by omega)
    obtain ⟨m4, hs4, hl4, hf4⟩ := ih (i + 1) (payload + 12) m3 (by omega) (by omega)
    refine ⟨m4, ?_, by omega, ?_⟩
    · simp only [serialize_loop_mem, sizeofOrder, hv1, hs1, hv2, hs2, hv3, hs3, hs4, bind_ok]
    · intro j hj
      rw [hf4 j (by omega), hf3 j (by omega), hf2 j (by omega), hf1 j (by omega)]

/-- The function `serialize_orders` in one address space, for `n` records and a
buffer of at least `8 + 12 * n` bytes, both inside the memory: the call succeeds,
keeps the length of the memory and changes no byte outside of the first `8 + 12 * n`
bytes of the buffer. -/
theorem serialize_orders_mem_frame (e : Endian) (mem : List Nat)
    (buffer buffer_size orders n : Nat) (version : Int)
    (hint : n < 2 ^ 31) (hsize : 8 + 12 * n ≤ buffer_size)
    (hbuf : buffer + (8 + 12 * n) ≤ mem.length) (hord : orders + 12 * n ≤ mem.length) :
    ∃ r, serialize_orders_mem e mem buffer buffer_size orders n version = .ok r
      ∧ r.ret = toInt (8 + 12 * n) ∧ r.out = []
      ∧ r.mem.length = mem.length
      ∧ ∀ j, (j < buffer ∨ buffer + (8 + 12 * n) ≤ j) → r.mem[j]? = mem[j]? := by
  obtain ⟨m1, hs1, hl1, hf1⟩ := store32_frame e mem buffer MAGIC (by omega)
  obtain ⟨m2, hs2, hl2, hf2⟩ := store16_frame e m1 (buffer + 6) (n % 65536) (by omega)
  obtain ⟨m3, hs3, hl3, hf3⟩ := store16_frame e m2 (buffer + 4) (toU16 version) (by omega)
  obtain ⟨m4, hs4, hl4, hf4⟩ := serialize_loop_mem_frame e orders n 0 (buffer + 8) m3
    (by omega) (by omega)
  refine ⟨⟨toInt (8 + 12 * n), m4, []⟩, ?_, rfl, rfl, by show m4.length = _; omega, ?_⟩
  · unfold serialize_orders_mem
    simp only [required_size_natCast n hint, toU16_natCast, Int.toNat_ofNat]
    rw [if_neg (by omega)]
    simp only [sizeofPacketHeader, hs1, hs2, hs3, hs4, bind_ok]
  · intro j hj
    show m4[j]? = _
    rw [hf4 j (by omega), hf3 j (by omega), hf2 j (by omega), hf1 j (by omega)]

/-- The records read from a memory that holds them. -/
theorem read_orders_ok (e : Endian) (mem : List Nat) (orders : Nat) :
    ∀ (n i : Nat), orders + 12 * (i + n) ≤ mem.length →
      ∃ os, os.length = n ∧ read_orders e mem orders n i = .ok os := by
  intro n
  induction n with
  | zero => intro i _; exact ⟨[], rfl, rfl⟩
  | succ n ih =>
    intro i h
    obtain ⟨v1, hv1⟩ := load32_ok e mem (orders + 12 * i) (by omega)
    obtain ⟨v2, hv2⟩ := load32_ok e mem (orders + 12 * i + 4) (by omega)
    obtain ⟨v3, hv3⟩ := load32_ok e mem (orders + 12 * i + 8) (by omega)
    obtain ⟨os, hos, hrun⟩ := ih (i + 1) (by omega)
    refine ⟨⟨v1, v2, v3⟩ :: os, by rw [List.length_cons, hos], ?_⟩
    simp only [read_orders, read_order, sizeofOrder, hv1, hv2, hv3, hrun, bind_ok]

/-- Two memories of the same length that agree on the bytes of the records
`orders[i]`, ..., `orders[i + n - 1]` hold the same records. -/
theorem read_orders_congr (e : Endian) (m1 m2 : List Nat) (orders : Nat)
    (hl : m1.length = m2.length) :
    ∀ (n i : Nat),
      (∀ j, orders + 12 * i ≤ j → j < orders + 12 * (i + n) → m1[j]? = m2[j]?) →
      read_orders e m1 orders n i = read_orders e m2 orders n i := by
  intro n
  induction n with
  | zero => intro _ _; rfl
  | succ n ih =>
    intro i h
    have h1 := load32_congr e m1 m2 (orders + 12 * i) hl
      (fun j a b => h j (by omega) (by omega))
    have h2 := load32_congr e m1 m2 (orders + 12 * i + 4) hl
      (fun j a b => h j (by omega) (by omega))
    have h3 := load32_congr e m1 m2 (orders + 12 * i + 8) hl
      (fun j a b => h j (by omega) (by omega))
    have hrec := ih (i + 1) (fun j a b => h j (by omega) (by omega))
    simp only [read_orders, read_order, sizeofOrder, h1, h2, h3, hrec]

/-- With the two records behind a buffer of 32 bytes, `serialize_orders_mem` leaves
in the buffer the bytes that `serialize_orders` produces. -/
theorem serialize_orders_mem_example :
    serialize_orders_mem .little
        (List.replicate 32 0 ++ [1, 0, 0, 0, 100, 0, 0, 0, 5, 0, 0, 0,
          2, 0, 0, 0, 250, 0, 0, 0, 3, 0, 0, 0]) 0 32 32 2 1
        = .ok ⟨32, [0xBE, 0xBA, 0xFE, 0xCA, 1, 0, 2, 0, 1, 0, 0, 0, 100, 0, 0, 0, 5, 0, 0, 0,
            2, 0, 0, 0, 250, 0, 0, 0, 3, 0, 0, 0] ++ [1, 0, 0, 0, 100, 0, 0, 0, 5, 0, 0, 0,
            2, 0, 0, 0, 250, 0, 0, 0, 3, 0, 0, 0], []⟩
      ∧ serialize_orders .little (List.replicate 32 0) 32 [⟨1, 100, 5⟩, ⟨2, 250, 3⟩] 2 1
        = .ok ⟨32, [0xBE, 0xBA, 0xFE, 0xCA, 1, 0, 2, 0, 1, 0, 0, 0, 100, 0, 0, 0, 5, 0, 0, 0,
            2, 0, 0, 0, 250, 0, 0, 0, 3, 0, 0, 0], []⟩ := by
  decide

/-! ## C11: no write past the required size -/

/-- C11 (as amended): for every call of `serialize_orders` with `n` records and a
buffer of `buffer_size ≥ 8 + 12 * n` bytes, the call succeeds without an error line,
and every byte of the buffer at an index from `8 + 12 * n` on has the same value after
the call as before it; and when the record array does not overlap the first
`8 + 12 * n` bytes of the buffer, the record sequence read after the call is the one
read before it. -/
theorem C11_no_write_past_required_size (e : Endian) (mem : List Nat)
    (buffer buffer_size orders n : Nat) (version : Int)
    (hint : n < 2 ^ 31) (hsize : 8 + 12 * n ≤ buffer_size)
    (hbuf : buffer + (8 + 12 * n) ≤ mem.length) (hord : orders + 12 * n ≤ mem.length) :
    ∃ r, serialize_orders_mem e mem buffer buffer_size orders n version = .ok r
      ∧ r.out = []
      ∧ r.mem.length = mem.length
      ∧ (∀ k, 8 + 12 * n ≤ k → r.mem[buffer + k]? = mem[buffer + k]?)
      ∧ ((orders + 12 * n ≤ buffer ∨ buffer + (8 + 12 * n) ≤ orders) →
          ∃ os, os.length = n ∧ read_orders e mem orders n 0 = .ok os
            ∧ read_orders e r.mem orders n 0 = .ok os) := by
  obtain ⟨r, hrun, _, hout, hlen, hframe⟩ := serialize_orders_mem_frame e mem buffer buffer_size
    orders n version hint hsize hbuf hord
  refine ⟨r, hrun, hout, hlen, fun k hk => hframe (buffer + k) (Or.inr (by omega)), ?_⟩
  intro hdisjoint
  obtain ⟨os, hos, hread⟩ := read_orders_ok e mem orders n 0 (by omega)
  refine ⟨os, hos, hread, ?_⟩
  rw [← hread]
  exact read_orders_congr e r.mem mem orders hlen n 0
    (fun j h1 h2 => hframe j (by omega))

/-- C11, witness: a buffer of 36 bytes at address 0 and two records behind it, at
address 36. The last 4 bytes of the buffer keep their value and the records are read
back as `{1,100,5}`, `{2,250,3}`. -/
theorem C11_no_write_past_required_size_witness :
    ∃ r, serialize_orders_mem .little
          (List.replicate 36 7 ++ [1, 0, 0, 0, 100, 0, 0, 0, 5, 0, 0, 0,
            2, 0, 0, 0, 250, 0, 0, 0, 3, 0, 0, 0]) 0 36 36 2 1 = .ok r
      ∧ r.out = []
      ∧ r.mem.length = (List.replicate 36 7 ++ [1, 0, 0, 0, 100, 0, 0, 0, 5, 0, 0, 0,
            2, 0, 0, 0, 250, 0, 0, 0, 3, 0, 0, 0]).length
      ∧ (∀ k, 8 + 12 * 2 ≤ k → r.mem[0 + k]?
          = (List.replicate 36 7 ++ [1, 0, 0, 0, 100, 0, 0, 0, 5, 0, 0, 0,
            2, 0, 0, 0, 250, 0, 0, 0, 3, 0, 0, 0])[0 + k]?)
      ∧ ((36 + 12 * 2 ≤ 0 ∨ 0 + (8 + 12 * 2) ≤ 36) →
          ∃ os, os.length = 2
            ∧ read_orders .little (List.replicate 36 7 ++ [1, 0, 0, 0, 100, 0, 0, 0, 5, 0, 0, 0,
                2, 0, 0, 0, 250, 0, 0, 0, 3, 0, 0, 0]) 36 2 0 = .ok os
            ∧ read_orders .little r.mem 36 2 0 = .ok os) :=
  C11_no_write_past_required_size .little
    (List.replicate 36 7 ++ [1, 0, 0, 0, 100, 0, 0, 0, 5, 0, 0, 0,
      2, 0, 0, 0, 250, 0, 0, 0, 3, 0, 0, 0]) 0 36 36 2 1
    (by decide) (by decide) (by decide) (by decide)

/-- C11, counterexample: one memory of 44 bytes, the buffer at address 0 with
`buffer_size = 32`, and the two records `{1,100,5}`, `{2,250,3}` at address 20, inside
the buffer. Every access is inside the memory, the call succeeds and returns 32, and
the record sequence read after the call is `{2,250,3}`, `{2,250,3}`: the second
iteration of the loop stores `orders[1]` over `orders[0]`. -/
theorem C11_counterexample :
    read_orders .little
        (List.replicate 20 0 ++ [1, 0, 0, 0, 100, 0, 0, 0, 5, 0, 0, 0,
          2, 0, 0, 0, 250, 0, 0, 0, 3, 0, 0, 0]) 20 2 0
        = .ok [⟨1, 100, 5⟩, ⟨2, 250, 3⟩]
      ∧ serialize_orders_mem .little
          (List.replicate 20 0 ++ [1, 0, 0, 0, 100, 0, 0, 0, 5, 0, 0, 0,
            2, 0, 0, 0, 250, 0, 0, 0, 3, 0, 0, 0]) 0 32 20 2 1
        = .ok ⟨32, [0xBE, 0xBA, 0xFE, 0xCA, 1, 0, 2, 0, 1, 0, 0, 0, 100, 0, 0, 0, 5, 0, 0, 0,
            2, 0, 0, 0, 250, 0, 0, 0, 3, 0, 0, 0, 2, 0, 0, 0, 250, 0, 0, 0, 3, 0, 0, 0], []⟩
      ∧ read_orders .little
          [0xBE, 0xBA, 0xFE, 0xCA, 1, 0, 2, 0, 1, 0, 0, 0, 100, 0, 0, 0, 5, 0, 0, 0,
            2, 0, 0, 0, 250, 0, 0, 0, 3, 0, 0, 0, 2, 0, 0, 0, 250, 0, 0, 0, 3, 0, 0, 0] 20 2 0
        = .ok [⟨2, 250, 3⟩, ⟨2, 250, 3⟩] := by
  decide

end OrderEntry
